import Mathlib

/-!
# Verification of the godotenv dotenv parser (alois9866/godotenv)

A shallow embedding of `godotenv.go` in Lean 4.  Go strings are modelled as
`List Char` (the repository only processes text, where rune-level and
byte-level processing coincide); Go maps `map[string]string` are modelled as
association lists with unique keys (`EnvMap`); the filesystem and the system
environment, which the package only reads through `os.Open`/`bufio.Scanner`
and `os.Getenv`, are passed in explicitly (`FileSys`, a system `EnvMap`).
A document is the list of lines produced by `bufio.Scanner`, so no line
contains a newline character.

Each definition mirrors one Go function of `godotenv.go` and keeps its name.
The compiled regular expressions are translated into the equivalent explicit
character scans (RE2 semantics: leftmost match, greedy/lazy preference as
written; `.` does not match a newline, a negated class such as `[^$]` does).
-/

set_option maxRecDepth 20000

namespace Godotenv

/-- RE2 `\s`: `[\t\n\f\r ]` (used by `exportRegex`). -/
def isReSpace (c : Char) : Bool :=
  c = ' ' || c = '\t' || c = '\n' || c = '\x0c' || c = '\r'

/-- Go `unicode.IsSpace` (used by `strings.TrimSpace` in `isIgnoredLine`):
the Unicode White_Space property. -/
def unicodeIsSpace (c : Char) : Bool :=
  let n := c.toNat
  (9 ≤ n && n ≤ 13) || n = 32 || n = 133 || n = 160 || n = 5760 ||
  (8192 ≤ n && n ≤ 8202) || n = 8232 || n = 8233 || n = 8239 || n = 8287 || n = 12288

/-- The identifier class `[A-Z0-9_]` of `expandVarRegex`. -/
def identChar (c : Char) : Bool :=
  ('A' ≤ c && c ≤ 'Z') || ('0' ≤ c && c ≤ '9') || c = '_'

/-- Model of Go's `map[string]string`: an association list with unique keys. -/
abbrev EnvMap := List (String × String)

/-- Go `m[k] = v`: replace the binding of `k`, or append a new one. -/
def envSet : EnvMap → String → String → EnvMap
  | [], k, v => [(k, v)]
  | p :: rest, k, v => if p.1 = k then (k, v) :: rest else p :: envSet rest k v

/-- Go `v, ok := m[k]` (the two-result form). -/
def envGet? : EnvMap → String → Option String
  | [], _ => none
  | p :: rest, k => if p.1 = k then some p.2 else envGet? rest k

/-- Go `for k, v := range m { acc[k] = v }` (order-insensitive on
unique-keyed maps, which is all the code ever ranges over). -/
def mergeInto (acc m : EnvMap) : EnvMap :=
  m.foldl (fun a p => envSet a p.1 p.2) acc

/-- Go `os.Getenv`: the empty string when the variable is unset. -/
def osGetenv (sys : EnvMap) (k : String) : String :=
  (envGet? sys k).getD ""

/-- The two error kinds of the package: an `os.Open`/scanner failure, and the
`errors.New("can't separate key from value")` format error. -/
inductive GoErr
  | readError
  | formatError
deriving DecidableEq, Repr

/-- Drop matching characters from the right end (helper for regex trims). -/
def dropTrailing (p : Char → Bool) (l : List Char) : List Char :=
  (l.reverse.dropWhile p).reverse

/-- Go `strings.Index` for a single character (byte index and rune index
order coincide on well-formed text, and only the order is ever used). -/
def indexOfChar (c : Char) : List Char → Option Nat
  | [] => none
  | x :: rest => if x = c then some 0 else (indexOfChar c rest).map (· + 1)

/-- Go `strings.SplitN(l, sep, 2)` for a single-character separator. -/
def splitN2 (l : List Char) (sep : Char) : List (List Char) :=
  match indexOfChar sep l with
  | none => [l]
  | some i => [l.take i, l.drop (i + 1)]

/-- Go `strings.Split(l, "#")` for the comment stripper. -/
def splitOnChar (sep : Char) : List Char → List (List Char)
  | [] => [[]]
  | c :: rest =>
      match splitOnChar sep rest with
      | [] => [[c]]
      | s :: ss => if c = sep then [] :: s :: ss else (c :: s) :: ss

/-- Go `strings.Join(segments, "#")`. -/
def joinHash : List (List Char) → List Char
  | [] => []
  | [s] => s
  | s :: rest => s ++ '#' :: joinHash rest

/-- Go `removeComments`: ditch the comments (but keep quoted hashes).
Splits on `#`, walks the segments tracking `quotesAreOpen`, keeps the
segments the Go loop keeps, and rejoins with `#`. -/
def removeCommentsL (line : List Char) : List Char :=
  if decide ('#' ∈ line) then
    let step := fun (st : Bool × List (List Char)) (segment : List Char) =>
      let quotesAreOpen := st.1
      let segmentsToKeep := st.2
      let (quotesAreOpen, segmentsToKeep) :=
        if segment.count '"' = 1 || segment.count '\'' = 1 then
          if quotesAreOpen then (false, segmentsToKeep ++ [segment])
          else (true, segmentsToKeep)
        else (quotesAreOpen, segmentsToKeep)
      if segmentsToKeep.isEmpty || quotesAreOpen then
        (quotesAreOpen, segmentsToKeep ++ [segment])
      else (quotesAreOpen, segmentsToKeep)
    joinHash ((splitOnChar '#' line).foldl step (false, [])).2
  else line

/-- Go `exportRegex.ReplaceAllString(s, "$1")` with
`exportRegex = ^\s*(?:export\s+)?(.*?)\s*$`.  The anchored pattern matches
(once, covering the whole text) exactly when the core left after stripping
leading `\s*`, an optional `export\s+`, and trailing `\s*` is free of
newlines (`.` does not match a newline); otherwise the text is unchanged. -/
def exportTrim (l : List Char) : List Char :=
  let l1 := l.dropWhile isReSpace
  let l2 :=
    if ('e' :: 'x' :: 'p' :: 'o' :: 'r' :: 't' :: []).isPrefixOf l1 &&
        (match l1.drop 6 with
          | c :: _ => isReSpace c
          | [] => false) then
      (l1.drop 6).dropWhile isReSpace
    else l1
  let core := dropTrailing isReSpace l2
  if decide ('\n' ∈ core) then l else core

/-- Go `escapeRegex.ReplaceAllStringFunc` with `escapeRegex = \\.`:
`\n`/`\r` become actual newline / carriage return, any other matched pair is
kept.  `.` does not match a newline, so a backslash before a newline is not
a match and both characters are kept. -/
def expandEscapes : List Char → List Char
  | '\\' :: c :: rest =>
      if c = '\n' then '\\' :: '\n' :: expandEscapes rest
      else if c = 'n' then '\n' :: expandEscapes rest
      else if c = 'r' then '\r' :: expandEscapes rest
      else '\\' :: c :: expandEscapes rest
  | c :: rest => c :: expandEscapes rest
  | [] => []

/-- Go `unescapeCharsRegex.ReplaceAllString(s, "$1")` with
`unescapeCharsRegex = \\([^$])`: a backslash followed by a non-dollar
character is replaced by that character; `\$` is left alone. -/
def unescapeChars : List Char → List Char
  | '\\' :: c :: rest =>
      if c = '$' then '\\' :: '$' :: unescapeChars rest
      else c :: unescapeChars rest
  | c :: rest => c :: unescapeChars rest
  | [] => []

/-- The part of an `expandVarRegex = (\\)?(\$)(\()?{?([A-Z0-9_]+)?}?` match
after the `$`: an optional `(` (group 3), an optional open brace, a greedy
optional identifier (group 4), an optional close brace.  Returns
(group 3 nonempty, consumed characters, group 4, remaining input). -/
def matchAfterDollar (l : List Char) : Bool × List Char × List Char × List Char :=
  let paren := decide (l.head? = some '(')
  let l1 := if l.head? = some '(' then l.tail else l
  let ob : List Char := if l1.head? = some '{' then ['{'] else []
  let l2 := if l1.head? = some '{' then l1.tail else l1
  let id := l2.takeWhile identChar
  let l3 := l2.dropWhile identChar
  let cb : List Char := if l3.head? = some '}' then ['}'] else []
  let l4 := if l3.head? = some '}' then l3.tail else l3
  (paren, (if paren then ['('] else []) ++ ob ++ id ++ cb, id, l4)

/-- The replacement function inside `expandVariables`.  `full` is
`submatch[0]`, `sub1` the `(\\)?` group, `sub2` the `(\$)` group (always
`"$"` on a match), `sub4` the identifier group.  Go tests
`submatch[1] == `\` || submatch[2] == "("`; the second comparison is against
group 2, not the `(\()?` group 3, and is therefore never true. -/
def replaceMatch (m : EnvMap) (full sub1 sub2 sub4 : List Char) : List Char :=
  if sub1 = ['\\'] || sub2 = ['('] then full.drop 1
  else if sub4 ≠ [] then ((envGet? m (String.mk sub4)).getD "").data
  else full

/-- Scan of `expandVarRegex.ReplaceAllStringFunc`: left to right; a match
starts at `\$` or at a bare `$`, consumes the optional paren/brace/identifier
tail, and is rewritten by `replaceMatch`; everything else is copied.
Structural recursion on fuel keeps the definition kernel-computable; the
wrapper `expandVarsAux` supplies `l.length`, which always suffices because
every match consumes at least the `$`. -/
def expandVarsFuel (m : EnvMap) : Nat → List Char → List Char
  | _, [] => []
  | 0, l => l
  | fuel + 1, c :: rest =>
      if c = '\\' ∧ rest.head? = some '$' then
        let t := matchAfterDollar rest.tail
        replaceMatch m ('\\' :: '$' :: t.2.1) ['\\'] ['$'] t.2.2.1 ++
          expandVarsFuel m fuel t.2.2.2
      else if c = '$' then
        let t := matchAfterDollar rest
        replaceMatch m ('$' :: t.2.1) [] ['$'] t.2.2.1 ++
          expandVarsFuel m fuel t.2.2.2
      else c :: expandVarsFuel m fuel rest

/-- Scan of `expandVariables` over a character list. -/
def expandVarsAux (m : EnvMap) (l : List Char) : List Char :=
  expandVarsFuel m l.length l

/-- Go `expandVariables(str, m)`. -/
def expandVariables (str : String) (m : EnvMap) : String :=
  String.mk (expandVarsAux m str.data)

/-- The cutset test of `strings.Trim(value, " ")` in `parseValue`. -/
def isCutsetSpace (c : Char) : Bool := c = ' '

/-- The anchored wrap test `\A q (.*) q \z` of `singleQuotesRegex` /
`doubleQuotesRegex` on a value of length > 1: first and last character are
the quote and the interior (matched by `(.*)`, which cannot cross a
newline) is newline-free. -/
def anchoredWrap (q : Char) (value : List Char) : Bool :=
  decide (value.head? = some q) && decide (value.getLast? = some q) &&
    !(decide ('\n' ∈ (value.drop 1).dropLast))

/-- Go `parseValue(value, envMap)`: trim plain spaces, strip a matching
quote pair, escape-decode double-quoted text, and interpolate unless the
wrap was single-quoted. -/
def parseValueL (value : List Char) (envMap : EnvMap) : List Char :=
  let value := dropTrailing isCutsetSpace (value.dropWhile isCutsetSpace)
  if 1 < value.length then
    let singleQuotes := anchoredWrap '\'' value
    let doubleQuotes := anchoredWrap '"' value
    let value := if singleQuotes || doubleQuotes then (value.drop 1).dropLast else value
    let value := if doubleQuotes then unescapeChars (expandEscapes value) else value
    if singleQuotes then value else expandVarsAux envMap value
  else value

/-- Go `parseLine(line, envMap)`: strip comments, choose the delimiter
(`:` when it exists and comes before any `=`, else `=`), fail when the
chosen delimiter is absent, trim the key, decode the value. -/
def parseLineL (line : List Char) (envMap : EnvMap) :
    Except GoErr (List Char × List Char) :=
  let line := removeCommentsL line
  let firstEquals := indexOfChar '=' line
  let firstColon := indexOfChar ':' line
  let splitString :=
    match firstColon, firstEquals with
    | some c, some e => if c < e then splitN2 line ':' else splitN2 line '='
    | some _, none => splitN2 line ':'
    | none, _ => splitN2 line '='
  match splitString with
  | [k, v] => .ok (exportTrim k, parseValueL v envMap)
  | _ => .error .formatError

/-- String-level `parseLine`. -/
def parseLine (line : String) (envMap : EnvMap) : Except GoErr (String × String) :=
  match parseLineL line.data envMap with
  | .error e => .error e
  | .ok (k, v) => .ok (String.mk k, String.mk v)

/-- String-level `parseValue`. -/
def parseValue (value : String) (envMap : EnvMap) : String :=
  String.mk (parseValueL value.data envMap)

/-- Go `isIgnoredLine`: blank after `strings.TrimSpace`, or a `#` comment. -/
def isIgnoredLine (line : String) : Bool :=
  let trimmedLine := dropTrailing unicodeIsSpace (line.data.dropWhile unicodeIsSpace)
  trimmedLine.isEmpty || trimmedLine.head? = some '#'

/-- The line loop of Go `parse`: skip ignored lines, stop at the first
`parseLine` error returning the mapping built so far, otherwise write the
pair into the accumulator. -/
def parseAux (envMap : EnvMap) : List String → EnvMap × Option GoErr
  | [] => (envMap, none)
  | line :: rest =>
      if isIgnoredLine line then parseAux envMap rest
      else
        match parseLine line envMap with
        | .error e => (envMap, some e)
        | .ok (k, v) => parseAux (envSet envMap k v) rest

/-- Go `parse` on a document (the scanner's list of lines; an in-memory
document never produces a scanner error). -/
def parse (lines : List String) : EnvMap × Option GoErr :=
  parseAux [] lines

/-- The filesystem, as the package sees it: a file name resolves to its
list of lines, or to `none` when `os.Open` fails (missing file, directory,
permissions). -/
abbrev FileSys := List (String × Option (List String))

/-- Go `readFile`: `nil, err` on an open failure, else `parse`. -/
def readFile (fs : FileSys) (filename : String) : EnvMap × Option GoErr :=
  match (fs.find? (fun p => p.1 = filename)).map Prod.snd with
  | none => ([], some .readError)
  | some none => ([], some .readError)
  | some (some lines) => parse lines

/-- The file loop of Go `read`: on the first per-file error return the
mapping accumulated from prior files with that error; on success merge the
new mapping over the accumulator. -/
def readAux (fs : FileSys) (envMap : EnvMap) : List String → EnvMap × Option GoErr
  | [] => (envMap, none)
  | filename :: rest =>
      let r := readFile fs filename
      match r.2 with
      | some e => (envMap, some e)
      | none => readAux fs (mergeInto envMap r.1) rest

/-- Go `read(filenames)`. -/
def read (fs : FileSys) (filenames : List String) : EnvMap × Option GoErr :=
  readAux fs [] filenames

/-- Go `filenamesOrDefault`. -/
def filenamesOrDefault (filenames : List String) : List String :=
  if filenames.isEmpty then [".env"] else filenames

/-- Go `config` built by the `Option` functions. -/
structure Config where
  /-- The Go field `variables` (that word is reserved in Lean). -/
  vars : List String
  filenames : List String
  systemFirst : Bool
deriving Repr

/-- Go `getAllVariables(fromEnvDotFiles, systemFirst)`: file variables
first, then each system variable overwrites when absent or when
`systemFirst` is set. -/
def getAllVariables (sys fromEnvDotFiles : EnvMap) (systemFirst : Bool) : EnvMap :=
  sys.foldl
    (fun acc p =>
      if ((envGet? acc p.1).isSome && systemFirst) || (envGet? acc p.1).isNone
      then envSet acc p.1 p.2 else acc)
    (mergeInto [] fromEnvDotFiles)

/-- The body of the per-variable loop in Go `get`: system value first
(final under `systemFirst`), file value overwrites otherwise, the name is
appended to `notFoundVariables` when neither yields anything. -/
def getStep (sys inFileVariables : EnvMap) (systemFirst : Bool)
    (acc : EnvMap × List String) (varName : String) : EnvMap × List String :=
  let value := osGetenv sys varName
  if value ≠ "" then
    let envMap := envSet acc.1 varName value
    if systemFirst then (envMap, acc.2)
    else
      match envGet? inFileVariables varName with
      | some v => (envSet envMap varName v, acc.2)
      | none => (envMap, acc.2)
  else
    match envGet? inFileVariables varName with
    | some v => (envSet acc.1 varName v, acc.2)
    | none => (acc.1, acc.2 ++ [varName])

/-- Go `get(cfg)`: note `inFileVariables, _ := read(...)` — the read error
is discarded and only the (possibly partial) mapping is used. -/
def get (fs : FileSys) (sys : EnvMap) (cfg : Config) : EnvMap × List String :=
  let inFileVariables := (read fs (filenamesOrDefault cfg.filenames)).1
  if cfg.vars.isEmpty then
    (getAllVariables sys inFileVariables cfg.systemFirst, [])
  else
    cfg.vars.foldl (getStep sys inFileVariables cfg.systemFirst) ([], [])

/-- Go `Variables(...)` option. -/
def Variables (vs : List String) : Config → Config :=
  fun c => { c with vars := vs }

/-- Go `PrioritizeSystem()` option. -/
def PrioritizeSystem : Config → Config :=
  fun c => { c with systemFirst := true }

/-- Go `From(...)` option. -/
def From (filePaths : List String) : Config → Config :=
  fun c => { c with filenames := filePaths }

/-- Go `Get(options...)`: fold the options over the zero config, then `get`. -/
def Get (fs : FileSys) (sys : EnvMap) (options : List (Config → Config)) :
    EnvMap × List String :=
  get fs sys (options.foldl (fun c o => o c) ⟨[], [], false⟩)

/-- A non-ignored line whose comment-stripped text has neither `=` nor `:`
(the exact condition under which `parseLine` fails). -/
def badLine (line : String) : Prop :=
  isIgnoredLine line = false ∧
    '=' ∉ removeCommentsL line.data ∧ ':' ∉ removeCommentsL line.data

instance (line : String) : Decidable (badLine line) := by
  unfold badLine; infer_instance

/-! ## Association-list map lemmas -/

theorem envGet?_envSet_self (m : EnvMap) (k v : String) :
    envGet? (envSet m k v) k = some v := by
  induction m with
  | nil => simp [envSet, envGet?]
  | cons p rest ih =>
      by_cases h : p.1 = k
      · simp [envSet, h, envGet?]
      · simp [envSet, h, envGet?, ih]

theorem envGet?_envSet_ne (m : EnvMap) (k k' v : String) (h : k' ≠ k) :
    envGet? (envSet m k v) k' = envGet? m k' := by
  induction m with
  | nil => simp [envSet, envGet?, if_neg (Ne.symm h)]
  | cons p rest ih =>
      by_cases hp : p.1 = k
      · subst hp
        simp [envSet, envGet?, if_neg (Ne.symm h)]
      · simp [envSet, hp, envGet?, ih]

theorem envGet?_eq_none (m : EnvMap) (k : String) (h : k ∉ m.map Prod.fst) :
    envGet? m k = none := by
  induction m with
  | nil => simp [envGet?]
  | cons p rest ih =>
      simp only [List.map_cons, List.mem_cons] at h
      push_neg at h
      simp [envGet?, Ne.symm h.1, ih h.2]

theorem mem_keys_envSet (m : EnvMap) (k v a : String)
    (h : a ∈ (envSet m k v).map Prod.fst) : a ∈ m.map Prod.fst ∨ a = k := by
  induction m with
  | nil => simpa [envSet] using h
  | cons p rest ih =>
      by_cases hp : p.1 = k
      · simp only [envSet, if_pos hp] at h
        simp only [List.map_cons, List.mem_cons] at h ⊢
        rcases h with h | h
        · exact Or.inr h
        · exact Or.inl (Or.inr h)
      · simp only [envSet, if_neg hp] at h
        simp only [List.map_cons, List.mem_cons] at h ⊢
        rcases h with h | h
        · exact Or.inl (Or.inl h)
        · rcases ih h with h' | h'
          · exact Or.inl (Or.inr h')
          · exact Or.inr h'

theorem nodup_keys_envSet (m : EnvMap) (k v : String)
    (h : (m.map Prod.fst).Nodup) : ((envSet m k v).map Prod.fst).Nodup := by
  induction m with
  | nil => simp [envSet]
  | cons p rest ih =>
      simp only [List.map_cons, List.nodup_cons] at h
      by_cases hp : p.1 = k
      · subst hp
        simpa [envSet, List.nodup_cons] using h
      · simp only [envSet, if_neg hp, List.map_cons, List.nodup_cons]
        refine ⟨fun hmem => ?_, ih h.2⟩
        rcases mem_keys_envSet rest k v p.1 hmem with h' | h'
        · exact h.1 h'
        · exact hp h'

theorem envGet?_mergeInto (m : EnvMap) : ∀ (acc : EnvMap) (k : String),
    (m.map Prod.fst).Nodup →
    envGet? (mergeInto acc m) k = (envGet? m k).or (envGet? acc k) := by
  induction m with
  | nil => intro acc k _; simp [mergeInto, envGet?]
  | cons p rest ih =>
      intro acc k h
      simp only [List.map_cons, List.nodup_cons] at h
      have hstep : mergeInto acc (p :: rest) = mergeInto (envSet acc p.1 p.2) rest := rfl
      rw [hstep, ih _ k h.2]
      by_cases hk : p.1 = k
      · subst hk
        rw [envGet?_eq_none rest p.1 h.1]
        simp [envGet?, envGet?_envSet_self]
      · simp [envGet?, hk, envGet?_envSet_ne _ _ _ _ (Ne.symm hk)]

/-! ## Parser lemmas -/

theorem indexOfChar_eq_none_iff (c : Char) (l : List Char) :
    indexOfChar c l = none ↔ c ∉ l := by
  induction l with
  | nil => simp [indexOfChar]
  | cons x rest ih =>
      by_cases h : x = c
      · simp [indexOfChar, h]
      · simp [indexOfChar, h, ih, Ne.symm h]

theorem parseLineL_error_iff (line : List Char) (m : EnvMap) (e : GoErr) :
    parseLineL line m = .error e ↔
      (e = .formatError ∧
        '=' ∉ removeCommentsL line ∧ ':' ∉ removeCommentsL line) := by
  unfold parseLineL
  rcases hc : indexOfChar ':' (removeCommentsL line) with _ | j <;>
    rcases he : indexOfChar '=' (removeCommentsL line) with _ | i
  · have h₁ := (indexOfChar_eq_none_iff ':' (removeCommentsL line)).mp hc
    have h₂ := (indexOfChar_eq_none_iff '=' (removeCommentsL line)).mp he
    simp [splitN2, hc, he, h₁, h₂]
    exact eq_comm
  · have h₂ : '=' ∈ removeCommentsL line := by
      by_contra hnot
      rw [(indexOfChar_eq_none_iff '=' (removeCommentsL line)).mpr hnot] at he
      exact Option.noConfusion he
    simp [splitN2, hc, he, h₂]
  · have h₁ : ':' ∈ removeCommentsL line := by
      by_contra hnot
      rw [(indexOfChar_eq_none_iff ':' (removeCommentsL line)).mpr hnot] at hc
      exact Option.noConfusion hc
    simp [splitN2, hc, he, h₁]
  · have h₁ : ':' ∈ removeCommentsL line := by
      by_contra hnot
      rw [(indexOfChar_eq_none_iff ':' (removeCommentsL line)).mpr hnot] at hc
      exact Option.noConfusion hc
    by_cases hlt : j < i <;> simp [splitN2, hc, he, hlt, h₁]

theorem parseLine_error_iff (line : String) (m : EnvMap) (e : GoErr) :
    parseLine line m = .error e ↔
      (e = .formatError ∧
        '=' ∉ removeCommentsL line.data ∧ ':' ∉ removeCommentsL line.data) := by
  unfold parseLine
  rcases hp : parseLineL line.data m with e' | kv
  · have h' := (parseLineL_error_iff line.data m e').mp hp
    simp only [hp, Except.error.injEq]
    constructor
    · rintro rfl; exact h'
    · intro h; exact h'.1.trans h.1.symm
  · simp only [hp]
    constructor
    · intro h; exact Except.noConfusion h
    · intro h
      have := (parseLineL_error_iff line.data m .formatError).mpr ⟨rfl, h.2.1, h.2.2⟩
      rw [hp] at this
      exact Except.noConfusion this

theorem parseAux_error_iff (lines : List String) : ∀ m : EnvMap,
    ((parseAux m lines).2 = some GoErr.formatError ↔ ∃ l ∈ lines, badLine l) := by
  induction lines with
  | nil => intro m; simp [parseAux]
  | cons line rest ih =>
      intro m
      by_cases hig : isIgnoredLine line
      · have hnb : ¬ badLine line := fun hb => by
          rw [hb.1] at hig; exact Bool.noConfusion hig
        simp [parseAux, hig, ih m, hnb]
      · have hfalse : isIgnoredLine line = false := by simpa using hig
        rcases hp : parseLine line m with e | ⟨k, v⟩
        · obtain ⟨rfl, h1, h2⟩ := (parseLine_error_iff line m e).mp hp
          have hstep : parseAux m (line :: rest) = (m, some GoErr.formatError) := by
            simp [parseAux, hig, hp]
          rw [hstep]
          constructor
          · intro _; exact ⟨line, List.mem_cons_self _ _, hfalse, h1, h2⟩
          · intro _; rfl
        · have hnb : ¬ badLine line := by
            intro hb
            have := (parseLine_error_iff line m .formatError).mpr ⟨rfl, hb.2.1, hb.2.2⟩
            rw [hp] at this; exact Except.noConfusion this
          simp [parseAux, hig, hp, ih (envSet m k v), hnb]

theorem parseAux_append (l₁ l₂ : List String) : ∀ m : EnvMap,
    (parseAux m l₁).2 = none →
    parseAux m (l₁ ++ l₂) = parseAux (parseAux m l₁).1 l₂ := by
  induction l₁ with
  | nil => intro m _; simp [parseAux]
  | cons line rest ih =>
      intro m h
      by_cases hig : isIgnoredLine line
      · simpa [parseAux, hig] using ih m (by simpa [parseAux, hig] using h)
      · rcases hp : parseLine line m with e | ⟨k, v⟩
        · exfalso; simp [parseAux, hig, hp] at h
        · have h' : (parseAux (envSet m k v) rest).2 = none := by
            simpa [parseAux, hig, hp] using h
          simpa [parseAux, hig, hp] using ih (envSet m k v) h'

theorem parseAux_stops (l₁ : List String) : ∀ (m : EnvMap) (bad : String)
    (l₂ : List String), (∀ l ∈ l₁, ¬ badLine l) → badLine bad →
    parseAux m (l₁ ++ bad :: l₂) = ((parseAux m l₁).1, some GoErr.formatError) := by
  induction l₁ with
  | nil =>
      intro m bad l₂ _ hb
      have hp := (parseLine_error_iff bad m .formatError).mpr ⟨rfl, hb.2.1, hb.2.2⟩
      simp [parseAux, hb.1, hp]
  | cons line rest ih =>
      intro m bad l₂ hall hb
      have hline := hall line (List.mem_cons_self _ _)
      by_cases hig : isIgnoredLine line
      · simpa [parseAux, hig] using
          ih m bad l₂ (fun l hl => hall l (List.mem_cons_of_mem _ hl)) hb
      · have hfalse : isIgnoredLine line = false := by simpa using hig
        rcases hp : parseLine line m with e | ⟨k, v⟩
        · exfalso
          obtain ⟨rfl, h1, h2⟩ := (parseLine_error_iff line m e).mp hp
          exact hline ⟨hfalse, h1, h2⟩
        · simpa [parseAux, hig, hp] using
            ih (envSet m k v) bad l₂ (fun l hl => hall l (List.mem_cons_of_mem _ hl)) hb

theorem parseAux_nodup (lines : List String) : ∀ m : EnvMap,
    (m.map Prod.fst).Nodup → (((parseAux m lines).1).map Prod.fst).Nodup := by
  induction lines with
  | nil => intro m h; simpa [parseAux] using h
  | cons line rest ih =>
      intro m h
      by_cases hig : isIgnoredLine line
      · simpa [parseAux, hig] using ih m h
      · rcases hp : parseLine line m with e | ⟨k, v⟩
        · simpa [parseAux, hig, hp] using h
        · simpa [parseAux, hig, hp] using ih (envSet m k v) (nodup_keys_envSet m k v h)

/-! ## Aggregator lemmas -/

theorem readAux_append (fs : FileSys) (ns₁ ns₂ : List String) : ∀ acc : EnvMap,
    (readAux fs acc ns₁).2 = none →
    readAux fs acc (ns₁ ++ ns₂) = readAux fs (readAux fs acc ns₁).1 ns₂ := by
  induction ns₁ with
  | nil => intro acc _; simp [readAux]
  | cons n rest ih =>
      intro acc h
      rcases hr : (readFile fs n).2 with _ | e
      · have h' : (readAux fs (mergeInto acc (readFile fs n).1) rest).2 = none := by
          simpa [readAux, hr] using h
        simpa [readAux, hr] using ih (mergeInto acc (readFile fs n).1) h'
      · exfalso; simp [readAux, hr] at h

theorem readAux_stops (fs : FileSys) (ns₁ : List String) (n : String)
    (ns₂ : List String) (e : GoErr) : ∀ acc : EnvMap,
    (∀ f ∈ ns₁, (readFile fs f).2 = none) → (readFile fs n).2 = some e →
    readAux fs acc (ns₁ ++ n :: ns₂) = ((readAux fs acc ns₁).1, some e) := by
  induction ns₁ with
  | nil => intro acc _ he; simp [readAux, he]
  | cons f rest ih =>
      intro acc hall he
      have hf := hall f (List.mem_cons_self _ _)
      simp only [List.cons_append, readAux, hf]
      exact ih _ (fun g hg => hall g (List.mem_cons_of_mem _ hg)) he

/-! ## Interpolator lemmas -/

theorem takeWhile_all_append (p : Char → Bool) (l₁ l₂ : List Char)
    (h₁ : ∀ c ∈ l₁, p c = true)
    (h₂ : ∀ c, l₂.head? = some c → p c = false) :
    (l₁ ++ l₂).takeWhile p = l₁ ∧ (l₁ ++ l₂).dropWhile p = l₂ := by
  induction l₁ with
  | nil =>
      rcases l₂ with _ | ⟨c, cs⟩
      · simp
      · have hc := h₂ c rfl
        simp [List.takeWhile_cons, List.dropWhile_cons, hc]
  | cons a l ih =>
      have ha := h₁ a (List.mem_cons_self _ _)
      have hrec := ih (fun c hc => h₁ c (List.mem_cons_of_mem _ hc))
      simp [List.takeWhile_cons, List.dropWhile_cons, ha, hrec.1, hrec.2]

theorem matchAfterDollar_all_ident (id : List Char) (h1 : id ≠ [])
    (h2 : ∀ c ∈ id, identChar c = true) :
    matchAfterDollar id = (false, id, id, []) := by
  obtain ⟨c0, cs, rfl⟩ := List.exists_cons_of_ne_nil h1
  have hc0 := h2 c0 (List.mem_cons_self _ _)
  have hne1 : c0 ≠ '(' := by rintro rfl; exact absurd hc0 (by decide)
  have hne2 : c0 ≠ '{' := by rintro rfl; exact absurd hc0 (by decide)
  have ht := takeWhile_all_append identChar (c0 :: cs) [] h2
    (fun c hc => Option.noConfusion hc)
  rw [List.append_nil] at ht
  unfold matchAfterDollar
  simp [hne1, hne2, ht.1, ht.2]

theorem matchAfterDollar_braced_ident (id : List Char)
    (h2 : ∀ c ∈ id, identChar c = true) :
    matchAfterDollar ('{' :: (id ++ ['}'])) = (false, '{' :: (id ++ ['}']), id, []) := by
  have ht := takeWhile_all_append identChar id ['}'] h2
    (by intro c hc; simp at hc; rw [← hc]; decide)
  unfold matchAfterDollar
  simp [ht.1, ht.2]

theorem expandVars_unknown (m : EnvMap) (id : List Char) (h1 : id ≠ [])
    (h2 : ∀ c ∈ id, identChar c = true) (h3 : envGet? m (String.mk id) = none) :
    expandVarsAux m ('$' :: id) = [] ∧
    expandVarsAux m ('$' :: '{' :: (id ++ ['}'])) = [] := by
  have hmd1 := matchAfterDollar_all_ident id h1 h2
  have hmd2 := matchAfterDollar_braced_ident id h2
  constructor
  · show expandVarsFuel m ('$' :: id).length ('$' :: id) = []
    rw [List.length_cons]
    simp only [expandVarsFuel]
    rw [if_pos trivial]
    simp only [hmd1]
    simp [replaceMatch, h1, h3, expandVarsFuel]
  · show expandVarsFuel m ('$' :: '{' :: (id ++ ['}'])).length ('$' :: '{' :: (id ++ ['}'])) = []
    rw [List.length_cons]
    simp only [expandVarsFuel]
    rw [if_pos trivial]
    simp only [hmd2]
    simp [replaceMatch, h1, h3, expandVarsFuel]

/-! ## Value-decoder lemmas -/

theorem dropWhile_eq_self_of_head (p : Char → Bool) (l : List Char)
    (h : ∀ c, l.head? = some c → p c = false) : l.dropWhile p = l := by
  cases l with
  | nil => rfl
  | cons c cs => rw [List.dropWhile_cons, h c rfl]; simp

theorem dropTrailing_eq_self_of_getLast (p : Char → Bool) (l : List Char)
    (h : ∀ c, l.getLast? = some c → p c = false) : dropTrailing p l = l := by
  unfold dropTrailing
  rw [dropWhile_eq_self_of_head p l.reverse
        (fun c hc => h c ((List.head?_reverse l) ▸ hc)),
      List.reverse_reverse]

theorem parseValueL_single_quoted (xs : List Char) (m : EnvMap) (h : '\n' ∉ xs) :
    parseValueL ('\'' :: (xs ++ ['\''])) m = xs := by
  have hhead : ('\'' :: (xs ++ ['\''])).head? = some '\'' := rfl
  have hlast : ('\'' :: (xs ++ ['\''])).getLast? = some '\'' := by
    rw [show '\'' :: (xs ++ ['\'']) = ('\'' :: xs) ++ ['\''] from rfl, List.getLast?_concat]
  have hint : (('\'' :: (xs ++ ['\''])).drop 1).dropLast = xs := by
    rw [show ('\'' :: (xs ++ ['\''])).drop 1 = xs ++ ['\''] from rfl, List.dropLast_concat]
  have hsq : anchoredWrap '\'' ('\'' :: (xs ++ ['\''])) = true := by
    unfold anchoredWrap
    rw [hhead, hlast, hint]
    simp [h]
  have hdq : anchoredWrap '"' ('\'' :: (xs ++ ['\''])) = false := by
    unfold anchoredWrap
    rw [hhead]
    simp
  have hlen : 1 < ('\'' :: (xs ++ ['\''])).length := by
    simp [List.length_append]
  unfold parseValueL
  rw [dropWhile_eq_self_of_head _ _
        (by intro c hc; rw [hhead] at hc; injection hc with hc; subst hc; decide),
      dropTrailing_eq_self_of_getLast _ _
        (by intro c hc; rw [hlast] at hc; injection hc with hc; subst hc; decide)]
  rw [if_pos hlen, hsq, hdq]
  simp only [Bool.true_eq_false, ite_false, if_false]
  exact hint

theorem readFile_nodup (fs : FileSys) (n : String) :
    (((readFile fs n).1).map Prod.fst).Nodup := by
  rcases hq : (fs.find? (fun p => p.1 = n)).map Prod.snd with _ | (_ | lines)
  · simp [readFile, hq]
  · simp [readFile, hq]
  · have hstep : readFile fs n = parse lines := by simp [readFile, hq]
    rw [hstep]
    exact parseAux_nodup lines [] (by simp)

/-! ## Lookup-policy lemmas -/

theorem getStep_snd (sys file : EnvMap) (sf : Bool) (acc : EnvMap × List String)
    (x : String) :
    (getStep sys file sf acc x).2 =
      if envGet? file x = none ∧ osGetenv sys x = "" then acc.2 ++ [x] else acc.2 := by
  unfold getStep
  by_cases hx : osGetenv sys x = ""
  · rw [if_neg (fun hne => hne hx)]
    rcases hf : envGet? file x with _ | w
    · simp [hf, hx]
    · simp [hf, hx]
  · rw [if_pos hx]
    rcases hf : envGet? file x with _ | w <;> by_cases hsf : sf <;> simp [hf, hsf, hx]

theorem mem_foldl_getStep (sys file : EnvMap) (sf : Bool) (v : String) :
    ∀ (vs : List String) (acc : EnvMap × List String),
      (v ∈ (vs.foldl (getStep sys file sf) acc).2 ↔
        v ∈ acc.2 ∨ (v ∈ vs ∧ envGet? file v = none ∧ osGetenv sys v = "")) := by
  intro vs
  induction vs with
  | nil => intro acc; simp
  | cons x rest ih =>
      intro acc
      rw [List.foldl_cons, ih]
      have hsnd := getStep_snd sys file sf acc x
      by_cases hx : envGet? file x = none ∧ osGetenv sys x = ""
      · rw [hsnd, if_pos hx]
        by_cases hvx : v = x
        · subst hvx
          simp [List.mem_append, hx.1, hx.2]
        · simp only [List.mem_append, List.mem_cons, List.mem_singleton, hvx]
          tauto
      · rw [hsnd, if_neg hx]
        by_cases hvx : v = x
        · subst hvx
          simp only [List.mem_cons, true_or, true_and]
          constructor
          · intro h; tauto
          · rintro (h | h)
            · exact Or.inl h
            · exact absurd h hx
        · simp only [List.mem_cons, hvx, false_or]

/-! ## Claim theorems -/

/-- C1, counterexample: reading the (default) `.env` source fails with a
ReadError, yet `Get`'s output is identical to the output for a present but
empty `.env` — contrary to the claim, `Get` does not return the error to
its caller; `get` discards it (`inFileVariables, _ := read(...)`). -/
theorem C1_get_error_discarded :
    (read ([] : FileSys) (filenamesOrDefault [])).2 = some GoErr.readError ∧
    Get ([] : FileSys) [("X", "1")] [] =
      Get [(".env", some ([] : List String))] [("X", "1")] [] := by
  decide

/-- C1, amended: when reading or parsing a source fails, the aggregator
`read` returns that error to its immediate caller together with the partial
mapping merged from the fully processed earlier sources; `Get` itself
exposes no error value and silently discards the one `read` returns. -/
theorem C1_read_propagates_error (fs : FileSys) (ns₁ : List String) (n : String)
    (ns₂ : List String) (e : GoErr)
    (h₁ : ∀ f ∈ ns₁, (readFile fs f).2 = none)
    (h₂ : (readFile fs n).2 = some e) :
    read fs (ns₁ ++ n :: ns₂) = ((read fs ns₁).1, some e) :=
  readAux_stops fs ns₁ n ns₂ e [] h₁ h₂

theorem C1_read_propagates_error_witness :
    read [("a.env", some ["K=1"])] (["a.env"] ++ "nofile" :: []) =
      ((read [("a.env", some ["K=1"])] ["a.env"]).1, some GoErr.readError) :=
  C1_read_propagates_error [("a.env", some ["K=1"])] ["a.env"] "nofile" []
    GoErr.readError (by decide) (by decide)

/-- C2: the spec claims a match whose character after `$` is `(` is emitted
with only its `$` removed (`$(FOO)` → `(FOO)`).  In the code the guard
compares `submatch[2]` — the mandatory `(\$)` group, always `"$"` — with
`"("` instead of `submatch[3]`, the `(\()?` group, so that branch never
fires: `$(FOO)` has its identifier expanded and the `)` is left behind. -/
theorem C2_paren_form_expands :
    expandVariables "$(FOO)" [("FOO", "test")] = "test)" ∧
    expandVariables "$(FOO)" [("FOO", "test")] ≠ "(FOO)" := by
  decide

/-- C3: in selective mode, for a name non-empty in both the file mapping
and the system environment, `get` returns the file value without
priority-system and the system value with it (the result under
priority-system is `some v` for every filesystem, so the file mapping is
not consulted). -/
theorem C3_selective_priority (fs : FileSys) (sys : EnvMap) (fns : List String)
    (name v w : String) (hv : osGetenv sys name = v) (hv' : v ≠ "")
    (hw : envGet? (read fs (filenamesOrDefault fns)).1 name = some w)
    (_hw : w ≠ "") :
    envGet? (get fs sys ⟨[name], fns, false⟩).1 name = some w ∧
    envGet? (get fs sys ⟨[name], fns, true⟩).1 name = some v := by
  constructor
  · have hform : get fs sys ⟨[name], fns, false⟩ =
        getStep sys (read fs (filenamesOrDefault fns)).1 false ([], []) name := by
      simp [get]
    rw [hform]
    unfold getStep
    rw [hv, if_pos hv']
    simp only [Bool.false_eq_true, if_false, ite_false]
    rw [hw]
    exact envGet?_envSet_self _ _ _
  · have hform : get fs sys ⟨[name], fns, true⟩ =
        getStep sys (read fs (filenamesOrDefault fns)).1 true ([], []) name := by
      simp [get]
    rw [hform]
    unfold getStep
    rw [hv, if_pos hv']
    simp only [ite_true, if_true]
    exact envGet?_envSet_self _ _ _

theorem C3_selective_priority_witness :
    envGet? (get [(".env", some ["OPTION_A=1"])] [("OPTION_A", "999")]
      ⟨["OPTION_A"], [], false⟩).1 "OPTION_A" = some "1" ∧
    envGet? (get [(".env", some ["OPTION_A=1"])] [("OPTION_A", "999")]
      ⟨["OPTION_A"], [], true⟩).1 "OPTION_A" = some "999" :=
  C3_selective_priority [(".env", some ["OPTION_A=1"])] [("OPTION_A", "999")] []
    "OPTION_A" "999" "1" (by decide) (by decide) (by decide) (by decide)

/-- C4: a single-quoted anchored wrap decodes to exactly the text between
the quotes, with no escape decoding and no interpolation, for every
mapping.  The newline-freedom hypothesis is the `(.*)` of the anchor
regex, which cannot match a newline. -/
theorem C4_single_quoted_literal (inner : String) (m : EnvMap)
    (h : '\n' ∉ inner.data) :
    parseValue ("'" ++ inner ++ "'") m = inner := by
  have hdata : ("'" ++ inner ++ "'").data = '\'' :: (inner.data ++ ['\'']) := by
    simp [String.data_append]
  unfold parseValue
  rw [hdata, parseValueL_single_quoted inner.data m h]

theorem C4_single_quoted_literal_witness :
    parseValue ("'" ++ "quote $FOO" ++ "'") [("FOO", "x")] = "quote $FOO" :=
  C4_single_quoted_literal "quote $FOO" [("FOO", "x")] (by decide)

/-- C5: in a double-quoted value a backslash-escaped marker survives as a
literal dollar sequence: `FOO="foo\$BAR"` parses to `foo$BAR` for every
mapping (the escape branch of the interpolator never consults it). -/
theorem C5_escaped_dollar_literal (m : EnvMap) :
    parseLine "FOO=\"foo\\$BAR\"" m = .ok ("FOO", "foo$BAR") := rfl

/-- C6: a `$NAME` or dollar-brace `NAME` reference whose identifier is
absent from the mapping expands to the empty string; the interpolator is a
total function and produces no error for any input. -/
theorem C6_unknown_expands_empty (m : EnvMap) (id : List Char) (h1 : id ≠ [])
    (h2 : ∀ c ∈ id, identChar c = true) (h3 : envGet? m (String.mk id) = none) :
    expandVariables (String.mk ('$' :: id)) m = "" ∧
    expandVariables (String.mk ('$' :: '{' :: (id ++ ['}']))) m = "" := by
  have h := expandVars_unknown m id h1 h2 h3
  unfold expandVariables
  constructor
  · rw [show (String.mk ('$' :: id)).data = '$' :: id from rfl]
    unfold expandVarsAux at h ⊢
    rw [h.1]
  · rw [show (String.mk ('$' :: '{' :: (id ++ ['}']))).data =
        '$' :: '{' :: (id ++ ['}']) from rfl]
    unfold expandVarsAux at h ⊢
    rw [h.2]

theorem C6_unknown_expands_empty_witness :
    expandVariables (String.mk ('$' :: ['F', 'O', 'O'])) [("BAR", "1")] = "" ∧
    expandVariables (String.mk ('$' :: '{' :: (['F', 'O', 'O'] ++ ['}'])))
      [("BAR", "1")] = "" :=
  C6_unknown_expands_empty [("BAR", "1")] ['F', 'O', 'O'] (by decide) (by decide)
    (by decide)

/-- C7: `parse` returns a FormatError exactly when some non-ignored,
comment-stripped line contains neither `=` nor `:`, and it stops at the
first such line, returning the mapping built from the earlier lines. -/
theorem C7_format_error_iff (lines : List String) :
    ((parse lines).2 = some GoErr.formatError ↔ ∃ l ∈ lines, badLine l) ∧
    (∀ l₁ bad l₂, lines = l₁ ++ bad :: l₂ → (∀ l ∈ l₁, ¬ badLine l) →
      badLine bad → parse lines = ((parse l₁).1, some GoErr.formatError)) := by
  constructor
  · exact parseAux_error_iff lines []
  · intro l₁ bad l₂ hsplit hall hb
    rw [hsplit]
    exact parseAux_stops l₁ [] bad l₂ hall hb

theorem C7_format_error_iff_witness :
    parse ["A=1", "lol$wut", "B=2"] = ([("A", "1")], some GoErr.formatError) :=
  (C7_format_error_iff ["A=1", "lol$wut", "B=2"]).2 ["A=1"] "lol$wut" ["B=2"] rfl
    (by decide) (by decide)

/-- C8: comment stripping keeps `#` inside quoted spans and drops a
trailing comment outside them. -/
theorem C8_comment_stripping :
    parse ["FOO=\"bar#baz\" # comment"] = ([("FOO", "bar#baz")], none) ∧
    parse ["FOO=\"ba#r\""] = ([("FOO", "ba#r")], none) := by
  decide

/-- C9: in selective mode a requested name lands in the not-found list
exactly when the file mapping does not define it and the system environment
yields only the empty string for it; a name with a non-empty system value
or defined (even as empty) in the file mapping never appears there. -/
theorem C9_not_found_iff (fs : FileSys) (sys : EnvMap) (cfg : Config)
    (v : String) :
    v ∈ (get fs sys cfg).2 ↔
      v ∈ cfg.vars ∧
        envGet? (read fs (filenamesOrDefault cfg.filenames)).1 v = none ∧
        osGetenv sys v = "" := by
  unfold get
  by_cases hempty : cfg.vars.isEmpty
  · rw [if_pos hempty]
    have hnil : cfg.vars = [] := List.isEmpty_iff.mp hempty
    simp [hnil]
  · rw [if_neg hempty]
    rw [mem_foldl_getStep]
    simp

/-- C10: within one document later lines overwrite earlier assignments of
the same key, and across documents the aggregator merges a later source
over the accumulated mapping, so the last assignment in
document-then-line order wins. -/
theorem C10_last_write_wins :
    (∀ (lines : List String) (line : String) (k v : String),
        (parse lines).2 = none → isIgnoredLine line = false →
        parseLine line (parse lines).1 = .ok (k, v) →
        envGet? (parse (lines ++ [line])).1 k = some v) ∧
    (∀ (fs : FileSys) (ns : List String) (n : String) (k : String),
        (read fs ns).2 = none → (readFile fs n).2 = none →
        envGet? (read fs (ns ++ [n])).1 k =
          ((envGet? (readFile fs n).1 k).or (envGet? (read fs ns).1 k))) := by
  constructor
  · intro lines line k v hok hig hp
    have happ := parseAux_append lines [line] [] hok
    rw [show parse (lines ++ [line]) = parseAux (parse lines).1 [line] from happ]
    have hstep : parseAux (parse lines).1 [line] =
        (envSet (parse lines).1 k v, none) := by
      simp [parseAux, hig, hp]
    rw [hstep]
    exact envGet?_envSet_self _ _ _
  · intro fs ns n k hok hfile
    have happ := readAux_append fs ns [n] [] hok
    rw [show read fs (ns ++ [n]) = readAux fs (read fs ns).1 [n] from happ]
    have hstep : readAux fs (read fs ns).1 [n] =
        (mergeInto (read fs ns).1 (readFile fs n).1, none) := by
      simp [readAux, hfile]
    rw [hstep]
    exact envGet?_mergeInto (readFile fs n).1 (read fs ns).1 k (readFile_nodup fs n)

theorem C10_last_write_wins_witness :
    envGet? (parse (["OPTION_A=1"] ++ ["OPTION_A=2"])).1 "OPTION_A" = some "2" ∧
    envGet? (read [("a", some ["K=1"]), ("b", some ["K=2"])] (["a"] ++ ["b"])).1 "K" =
      ((envGet? (readFile [("a", some ["K=1"]), ("b", some ["K=2"])] "b").1 "K").or
        (envGet? (read [("a", some ["K=1"]), ("b", some ["K=2"])] ["a"]).1 "K")) :=
  ⟨C10_last_write_wins.1 ["OPTION_A=1"] "OPTION_A=2" "OPTION_A" "2" (by decide)
      (by decide) rfl,
   C10_last_write_wins.2 [("a", some ["K=1"]), ("b", some ["K=2"])] ["a"] "b" "K"
      (by decide) (by decide)⟩

end Godotenv
